import Mathlib

/-!
# gitleaks `detect/git` : change-set acquisition

A shallow embedding of `detect/git/git.go` (with `flags/git_request.go`) and the
properties of its commit resolver, patch assembler, diagnostic classifier and
working-tree diff acquisition.

Modelling conventions

* A Go `string` / `[]byte` is a `List Char` (`Str`).  The only separators the code
  splits on are the one-byte strings `"\n"` and `" "`.
* The outside world (the `git` executable, the file system, `filepath.Clean`,
  `gitdiff.Parse`) is a `World` value.  Its answers may depend on the whole
  history of external actions performed so far, so running the same command twice
  may give two different answers.
* Every function that touches the world takes the history of actions (`List Event`)
  and returns the extended history together with its result.
* `os.Exit` is a result of its own (`Run.exit`): the function does not return.
* A call that waits for ever is a result of its own too (`Run.blocked`).  `getCmdOutput`
  reads the diagnostic stream of the child to its end before it reads a byte of the
  standard output, so a child that writes more than one pipe buffer on its standard
  output waits for a reader, never closes its diagnostic stream, and the call never
  returns.
* A diagnostic stream is the list of the successive values of `scanner.Text()`
  that `bufio.Scanner` delivers; `nil` readers are `none`.
* Log output is kept only for `listenForStdErr`, where the level of each message
  is the classification of the line.
-/

namespace Gitleaks

/-! ## Strings -/

/-- Go `string` and `[]byte`. -/
abbrev Str := List Char

/-- Go `error` values (only ever passed through). -/
abbrev GoError := List Char

/-- Go `strings.Split(s, sep)` for a separator `sep` of one byte: the pieces of `s`
between the occurrences of `sep`; always at least one piece. -/
def stringsSplit : Str → Char → List Str
  | [], _ => [[]]
  | c :: cs, sep =>
    if c = sep then [] :: stringsSplit cs sep
    else
      match stringsSplit cs sep with
      | [] => [[c]]
      | w :: ws => (c :: w) :: ws

/-- Go `strings.Contains(s, substr)`: `substr` occurs at some position of `s`. -/
def stringsContains : Str → Str → Bool
  | [], substr => substr.isEmpty
  | c :: cs, substr => substr.isPrefixOf (c :: cs) || stringsContains cs substr

/-! ## Readers -/

/-- An `io.Reader` carrying data: the bytes it delivers and, when reading ends with
an error instead of EOF, that error. -/
structure Reader where
  bytes : Str
  fail : Option GoError
deriving DecidableEq

/-- Go `ioutil.ReadAll` as the code uses it (the data is dropped on error). -/
def ioutilReadAll (r : Reader) : Except GoError Str :=
  match r.fail with
  | some e => .error e
  | none => .ok r.bytes

/-- Go `strings.NewReader`. -/
def stringsNewReader (s : Str) : Reader :=
  { bytes := s, fail := none }

/-! ## The outside world -/

/-- An external action of the program. -/
inductive Event where
  | exec (name : Str) (args : List Str)
  | openFile (path : Str)
deriving DecidableEq

/-- What happens when a command is run: its pipes or `Start` fail, or it is started
and exposes its standard output and its diagnostic (standard error) lines. -/
inductive CmdRun where
  | failed (e : GoError)
  | started (stdout : Reader) (stderr : List Str)

/-- The collaborators outside this package.  `F` is `gitdiff.File`. -/
structure World (F : Type) where
  /-- Go `filepath.Clean`. -/
  filepathClean : Str → Str
  /-- Running `exec.Command(name, args...)` after the given history. -/
  run : List Event → Str → List Str → CmdRun
  /-- Go `os.Open` after the given history. -/
  osOpen : List Event → Str → Except GoError Reader
  /-- The parser `gitdiff.Parse`. -/
  gitdiffParse : Reader → Except GoError (List F)
  /-- Capacity in bytes of an operating-system pipe (65536 on Linux): what a child can
  write to a pipe that nobody reads before its write blocks. -/
  pipeBuffer : Nat

/-- A function returns, ends the process through `os.Exit`, or waits for ever. -/
inductive Run (α : Type) where
  | ret (a : α)
  | exit (code : Nat)
  | blocked

/-- Number of bytes of a string (UTF-8). -/
def byteLength (s : Str) : Nat := (s.map Char.utf8Size).sum

/-! ## `listenForStdErr` -/

/-- A log message of `listenForStdErr` with its level. -/
inductive LogEntry where
  | warn (msg : Str)
  | error (msg : Str)
deriving DecidableEq

/-- The condition of `git.go` lines 260-265 on `scanner.Text()`. -/
def isIgnorable (text : Str) : Bool :=
  stringsContains text "exhaustive rename detection was skipped".toList ||
  stringsContains text "inexact rename detection was skipped".toList ||
  stringsContains text "you may want to set your diff.renameLimit".toList

/-- The state of the scanning loop of `listenForStdErr`. -/
structure ListenState where
  logs : List LogEntry
  errEncountered : Bool
deriving DecidableEq

/-- One iteration of the scanning loop (`git.go` lines 245-272). -/
def listenStep (st : ListenState) (text : Str) : ListenState :=
  if isIgnorable text then
    { st with logs := st.logs ++ [LogEntry.warn text] }
  else
    { logs := st.logs ++ [LogEntry.error text], errEncountered := true }

/-- The function `listenForStdErr`: the messages logged and `some 1` when the process is
ended with `os.Exit(1)`, `none` when the function returns. -/
def listenForStdErr (stderr : Option (List Str)) : List LogEntry × Option Nat :=
  match stderr with
  | none => ([], none)
  | some lines =>
    let st := lines.foldl listenStep { logs := [], errEncountered := false }
    if st.errEncountered then (st.logs, some 1) else (st.logs, none)

/-! ## Running commands -/

/-- The executable name. -/
def gitName : Str := "git".toList

/-- The function `getCmdOutput` for the command `exec.Command(name, args...)`.
After `cmd.Start()` it calls `listenForStdErr(stderr)` (line 37), which returns only at the
end of the diagnostic stream, that is when the child has finished; the standard output is
read after that (line 39).  A child whose standard output does not fit in the pipe buffer
cannot finish before somebody reads it, so the call to `listenForStdErr` never returns. -/
def getCmdOutput {F : Type} (w : World F) (h : List Event) (name : Str) (args : List Str) :
    List Event × Run (Except GoError Str) :=
  let h1 := h ++ [Event.exec name args]
  match w.run h name args with
  | .failed e => (h1, .ret (.error e))
  | .started stdout stderr =>
    if w.pipeBuffer < byteLength stdout.bytes then (h1, .blocked)
    else
      match (listenForStdErr (some stderr)).2 with
      | some code => (h1, .exit code)
      | none => (h1, .ret (ioutilReadAll stdout))

/-- The loop shared by `getAllCommit` (lines 64-70) and `gitLogGitRequest`
(lines 113-119): append to `commits` the first piece of every line of `content`
whose first piece is not empty. -/
def appendCommits (commits : List Str) (content : Str) : List Str :=
  (stringsSplit content '\n').foldl
    (fun commits line =>
      let words := stringsSplit line ' '
      if words.headD [] ≠ [] then commits ++ [words.headD []] else commits)
    commits

/-- Argument vector of the history-range query of `getAllCommit`. -/
def getAllCommitArgs {F : Type} (w : World F) (dir source target : Str) : List Str :=
  ["-C".toList, w.filepathClean dir, "log".toList, "--format=oneline".toList,
    "--right-only".toList, target ++ "..".toList ++ source]

/-- The function `getAllCommit`. -/
def getAllCommit {F : Type} (w : World F) (h : List Event) (dir source target : Str) :
    List Event × Run (Except GoError (List Str)) :=
  match getCmdOutput w h gitName (getAllCommitArgs w dir source target) with
  | (h1, .blocked) => (h1, .blocked)
  | (h1, .exit code) => (h1, .exit code)
  | (h1, .ret (.error e)) => (h1, .ret (.error e))
  | (h1, .ret (.ok bytes)) => (h1, .ret (.ok (appendCommits [] bytes)))

/-- Argument vector of the single-commit patch query of `getCommitDetail`. -/
def getCommitDetailArgs {F : Type} (w : World F) (dir commit : Str) : List Str :=
  ["-C".toList, w.filepathClean dir, "show".toList, "-p".toList, "-U0".toList, commit]

/-- The function `getCommitDetail`. -/
def getCommitDetail {F : Type} (w : World F) (h : List Event) (dir commit : Str) :
    List Event × Run (Except GoError Str) :=
  getCmdOutput w h gitName (getCommitDetailArgs w dir commit)

/-! ## `gitLogGitRequest` -/

/-- The type `flags.GitRequestFlags`. -/
structure GitRequestFlags where
  SourceBranch : Str
  TargetBranch : Str
deriving DecidableEq

/-- The type `stdResult`; a `nil` reader is `none`. -/
structure stdResult where
  out : Option Reader
  err : Option (List Str)
deriving DecidableEq

/-- Branch-pair part of `gitLogGitRequest` (lines 95-101): the values of `commits` and
`enabled` after it. -/
def resolveBranchPair {F : Type} (w : World F) (h : List Event) (source : Str)
    (flags : Option GitRequestFlags) : List Event × Run (Except GoError (List Str × Bool)) :=
  match flags with
  | none => (h, .ret (.ok ([], false)))
  | some fl =>
    if fl.SourceBranch ≠ [] ∧ fl.TargetBranch ≠ [] then
      match getAllCommit w h source fl.SourceBranch fl.TargetBranch with
      | (h1, .blocked) => (h1, .blocked)
      | (h1, .exit code) => (h1, .exit code)
      | (h1, .ret (.error e)) => (h1, .ret (.error e))
      | (h1, .ret (.ok commits)) => (h1, .ret (.ok (commits, true)))
    else (h, .ret (.ok ([], false)))

/-- Commit-file part of `gitLogGitRequest` (lines 102-121), started with the values of
`commits` and `enabled` left by the branch-pair part. -/
def resolveCommitsFile {F : Type} (w : World F) (h : List Event) (commitsFile : Str)
    (commits : List Str) (enabled : Bool) : List Event × Except GoError (List Str × Bool) :=
  if commitsFile ≠ [] then
    match w.osOpen h commitsFile with
    | .error e => (h ++ [Event.openFile commitsFile], .error e)
    | .ok file =>
      match ioutilReadAll file with
      | .error e => (h ++ [Event.openFile commitsFile], .error e)
      | .ok content => (h ++ [Event.openFile commitsFile], .ok (appendCommits commits content, true))
  else (h, .ok (commits, enabled))

/-- Lines 90-121 of `gitLogGitRequest`: the commit list and the `enabled` flag. -/
def resolveCommits {F : Type} (w : World F) (h : List Event) (source : Str)
    (flags : Option GitRequestFlags) (commitsFile : Str) :
    List Event × Run (Except GoError (List Str × Bool)) :=
  match resolveBranchPair w h source flags with
  | (h1, .blocked) => (h1, .blocked)
  | (h1, .exit code) => (h1, .exit code)
  | (h1, .ret (.error e)) => (h1, .ret (.error e))
  | (h1, .ret (.ok (commits, enabled))) =>
    match resolveCommitsFile w h1 commitsFile commits enabled with
    | (h2, r) => (h2, .ret r)

/-- The loop of lines 128-141 of `gitLogGitRequest`, with its variables `changesDetail`
and `isFirst`. -/
def fetchLoop {F : Type} (w : World F) (source : Str) :
    List Event → List Str → Str → Bool → List Event × Run (Except GoError Str)
  | h, [], changesDetail, _ => (h, .ret (.ok changesDetail))
  | h, c :: cs, changesDetail, isFirst =>
    match getCommitDetail w h source c with
    | (h1, .blocked) => (h1, .blocked)
    | (h1, .exit code) => (h1, .exit code)
    | (h1, .ret (.error e)) => (h1, .ret (.error e))
    | (h1, .ret (.ok d)) =>
      fetchLoop w source h1 cs
        ((if !isFirst then changesDetail ++ ['\n'] else changesDetail) ++ d) false

/-- The function `gitLogGitRequest`; the Go result pair `(*stdResult, error)` is a pair of
options, `(none, none)` being the "not applicable" signal `nil, nil`. -/
def gitLogGitRequest {F : Type} (w : World F) (h : List Event) (source : Str)
    (flags : Option GitRequestFlags) (commitsFile : Str) :
    List Event × Run (Option stdResult × Option GoError) :=
  match resolveCommits w h source flags commitsFile with
  | (h1, .blocked) => (h1, .blocked)
  | (h1, .exit code) => (h1, .exit code)
  | (h1, .ret (.error e)) => (h1, .ret (none, some e))
  | (h1, .ret (.ok (commits, enabled))) =>
    if !enabled then (h1, .ret (none, none))
    else
      match fetchLoop w source h1 commits [] true with
      | (h2, .blocked) => (h2, .blocked)
      | (h2, .exit code) => (h2, .exit code)
      | (h2, .ret (.error e)) => (h2, .ret (none, some e))
      | (h2, .ret (.ok changesDetail)) =>
        (h2, .ret (some { err := none, out := some (stringsNewReader changesDetail) }, none))

/-! ## `GitDiff` -/

/-- What `GitDiff` hands back: the result of `gitdiff.Parse` (or the earlier error) and
the diagnostic stream given to the concurrent `listenForStdErr`, if one was started. -/
structure DiffResult (F : Type) where
  files : Except GoError (List F)
  listening : Option (List Str)

/-- The function `GitDiff`.  A command (`exec.Cmd`) is the pair of its name and argument
vector; building one launches nothing, `w.run` stands for the pipes and `cmd.Start()`. -/
def GitDiff {F : Type} (w : World F) (h : List Event) (source : Str) (staged : Bool) :
    List Event × DiffResult F :=
  let sourceClean := w.filepathClean source
  let cmd : Str × List Str :=
    (gitName, ["-C".toList, sourceClean, "diff".toList, "-U0".toList, ".".toList])
  let cmd : Str × List Str :=
    if staged then
      (gitName, ["-C".toList, sourceClean, "diff".toList, "-U0".toList, "--staged".toList,
        ".".toList])
    else cmd
  match w.run h cmd.1 cmd.2 with
  | .failed e => (h ++ [Event.exec cmd.1 cmd.2], { files := .error e, listening := none })
  | .started stdout stderr =>
    (h ++ [Event.exec cmd.1 cmd.2], { files := w.gitdiffParse stdout, listening := some stderr })

/-! ## Specification-side definitions -/

/-- Whitespace characters (the ASCII ones). -/
def isWhitespace (c : Char) : Bool :=
  c = ' ' || c = '\t' || c = '\n' || c = '\r' || c = '\x0b' || c = '\x0c'

/-- A blank line: nothing but whitespace. -/
def isBlank (line : Str) : Bool := line.all isWhitespace

/-- The first whitespace-delimited token of a line. -/
def firstToken (line : Str) : Str :=
  (line.dropWhile isWhitespace).takeWhile (fun c => !isWhitespace c)

/-- The specification of commit extraction: the first whitespace-delimited token of each
non-blank line, the lines being the pieces between `'\n'`. -/
def specFirstTokens (text : Str) : List Str :=
  ((text.splitOn '\n').filter (fun line => !isBlank line)).map firstToken

/-- The piece of a line before its first `' '`, when that piece is not empty. -/
def spacePiece (line : Str) : Option Str :=
  if line.takeWhile (fun c => c != ' ') = [] then none
  else some (line.takeWhile (fun c => c != ' '))

/-- The line shape of `--format=oneline`: the line is empty, or it starts with a character
that is not whitespace and its first whitespace character, if it has one, is a space. -/
def onelineShaped (line : Str) : Bool :=
  match line with
  | [] => true
  | c :: _ =>
    !isWhitespace c &&
      (match line.find? isWhitespace with
       | none => true
       | some d => d == ' ')

/-- A world in which every command prints `out` with no diagnostics and no file opens. -/
def printingWorld (out : Str) : World Unit where
  filepathClean := id
  run := fun _ _ _ => .started { bytes := out, fail := none } []
  osOpen := fun _ _ => .error "no such file".toList
  gitdiffParse := fun _ => .ok []
  pipeBuffer := 65536

/-- The level at which `listenForStdErr` is to log a line: a warning for an ignorable line,
an error for a fatal one. -/
def classify (line : Str) : LogEntry :=
  if isIgnorable line then LogEntry.warn line else LogEntry.error line

/-- The action of launching the single-commit patch query for `commit`. -/
def fetchEvent {F : Type} (w : World F) (source commit : Str) : Event :=
  Event.exec gitName (getCommitDetailArgs w source commit)

/-- The outcome that `getCommitDetail` has for each commit of a list when the commits are
fetched one after the other in list order, starting after the history `h`. -/
def fetchOutcomes {F : Type} (w : World F) (source : Str) :
    List Event → List Str → List (Run (Except GoError Str))
  | _, [] => []
  | h, c :: cs =>
    (getCommitDetail w h source c).2 :: fetchOutcomes w source (getCommitDetail w h source c).1 cs

/-- The branch pair is fully given: flags present, source and target branch not empty. -/
def branchPairGiven (flags : Option GitRequestFlags) : Bool :=
  match flags with
  | none => false
  | some fl => !fl.SourceBranch.isEmpty && !fl.TargetBranch.isEmpty

/-- A world where the history-range query prints `logOut`, the file `commits.txt` holds
`fileContent` and the single-commit query for a commit behaves as `patch` says. -/
def scriptedWorld (logOut fileContent : Str) (patch : Str → CmdRun) : World Unit where
  filepathClean := id
  run := fun _ _ args =>
    if args.getD 2 [] = "log".toList then .started { bytes := logOut, fail := none } []
    else patch (args.getLastD [])
  osOpen := fun _ path =>
    if path = "commits.txt".toList then .ok { bytes := fileContent, fail := none }
    else .error "no such file".toList
  gitdiffParse := fun _ => .ok []
  pipeBuffer := 65536

/-- A single-commit query that prints `"patch of "` followed by the commit. -/
def plainPatch (commit : Str) : CmdRun :=
  .started { bytes := "patch of ".toList ++ commit, fail := none } []

/-- The fixed set of known-benign substrings of the diagnostic classifier. -/
def benignSubstrings : List Str :=
  ["exhaustive rename detection was skipped".toList,
    "inexact rename detection was skipped".toList,
    "you may want to set your diff.renameLimit".toList]

/-- A single-commit query that prints nothing for the commit `c2` and `plainPatch`
otherwise. -/
def emptyForC2 (commit : Str) : CmdRun :=
  if commit = "c2".toList then .started { bytes := [], fail := none } [] else plainPatch commit

/-- A single-commit query that cannot be started for the commit `c2` and is `plainPatch`
otherwise. -/
def failingForC2 (commit : Str) : CmdRun :=
  if commit = "c2".toList then .failed "cannot start".toList else plainPatch commit

/-- A single-commit query that prints the fatal diagnostic line `fatal: bad object c2` and
no patch for the commit `c2`, and is `plainPatch` otherwise. -/
def fatalForC2 (commit : Str) : CmdRun :=
  if commit = "c2".toList then
    .started { bytes := [], fail := none } ["fatal: bad object c2".toList]
  else plainPatch commit

/-- A single-commit query that prints a patch of 65537 bytes for the commit `c2` and is
`plainPatch` otherwise. -/
def largeForC2 (commit : Str) : CmdRun :=
  if commit = "c2".toList then
    .started { bytes := List.replicate 65537 '+', fail := none } []
  else plainPatch commit

/-- Every command of the world prints a standard output that fits in the pipe buffer. -/
def outputsFit {F : Type} (w : World F) : Prop :=
  ∀ (h : List Event) (name : Str) (args : List Str) (stdout : Reader) (stderr : List Str),
    w.run h name args = .started stdout stderr → byteLength stdout.bytes ≤ w.pipeBuffer

/-- The branch pair `feature` / `main`. -/
def featureMain : GitRequestFlags :=
  { SourceBranch := "feature".toList, TargetBranch := "main".toList }

/-- A world in which every command prints nothing on its output and one fatal diagnostic
line. -/
def fatalWorld : World Unit where
  filepathClean := id
  run := fun _ _ _ => .started { bytes := [], fail := none } ["fatal: bad object abc123".toList]
  osOpen := fun _ _ => .error "no such file".toList
  gitdiffParse := fun _ => .ok []
  pipeBuffer := 65536

/-! ## Lemmas on strings -/

theorem stringsSplit_eq_splitOn (s : Str) (sep : Char) : stringsSplit s sep = s.splitOn sep := by
  induction s with
  | nil => simp [stringsSplit]
  | cons c cs ih =>
    have hne : cs.splitOn sep ≠ [] := List.splitOnP_ne_nil _ cs
    rw [stringsSplit, ih]
    simp only [List.splitOn, List.splitOnP_cons] at hne ⊢
    by_cases hc : c = sep
    · simp [hc]
    · simp only [hc, if_false, beq_iff_eq]
      cases hsp : List.splitOnP (fun x => x == sep) cs with
      | nil => exact absurd hsp hne
      | cons w ws => simp [List.modifyHead]

theorem stringsSplit_headD (line : Str) (sep : Char) :
    (stringsSplit line sep).headD [] = line.takeWhile (fun c => c != sep) := by
  induction line with
  | nil => simp [stringsSplit]
  | cons c cs ih =>
    rw [stringsSplit]
    by_cases hc : c = sep
    · simp [hc]
    · cases hsp : stringsSplit cs sep with
      | nil => rw [hsp] at ih; simp [hc, List.takeWhile_cons, ← ih]
      | cons w ws => rw [hsp] at ih; simp at ih; simp [hc, List.takeWhile_cons, ← ih]

theorem appendCommits_eq (commits : List Str) (content : Str) :
    appendCommits commits content = commits ++ (content.splitOn '\n').filterMap spacePiece := by
  unfold appendCommits
  rw [stringsSplit_eq_splitOn]
  generalize content.splitOn '\n' = ls
  induction ls generalizing commits with
  | nil => simp
  | cons l ls ih =>
    rw [List.foldl_cons, ih]
    simp only [stringsSplit_headD, spacePiece, List.filterMap_cons]
    by_cases hl : List.takeWhile (fun c => c != ' ') l = []
    · simp [hl]
    · simp [hl]

theorem takeWhile_space_eq_takeWhile_not_whitespace (l : Str)
    (hl : l.find? isWhitespace = none ∨ l.find? isWhitespace = some ' ') :
    l.takeWhile (fun c => c != ' ') = l.takeWhile (fun c => !isWhitespace c) := by
  induction l with
  | nil => rfl
  | cons x xs ih =>
    by_cases hx : isWhitespace x = true
    · have hsp : x = ' ' := by
        rcases hl with hl | hl
        · simp [List.find?_cons, hx] at hl
        · simpa [List.find?_cons, hx] using hl
      have hws : isWhitespace ' ' = true := by decide
      simp [List.takeWhile_cons, hsp, hws]
    · have hne : x ≠ ' ' := by
        intro hsp
        apply hx
        rw [hsp]
        rfl
      have hxs : xs.find? isWhitespace = none ∨ xs.find? isWhitespace = some ' ' := by
        simpa [List.find?_cons, hx] using hl
      simp [List.takeWhile_cons, hx, hne, ih hxs]

theorem spacePiece_of_onelineShaped (line : Str) (hline : onelineShaped line = true) :
    spacePiece line = if isBlank line then none else some (firstToken line) := by
  cases line with
  | nil => simp [spacePiece, isBlank]
  | cons c cs =>
    simp only [onelineShaped, Bool.and_eq_true, Bool.not_eq_true'] at hline
    obtain ⟨hc, hfind⟩ := hline
    have hfind2 : (c :: cs).find? isWhitespace = none ∨
        (c :: cs).find? isWhitespace = some ' ' := by
      cases hf : (c :: cs).find? isWhitespace with
      | none => exact Or.inl rfl
      | some d =>
        rw [hf] at hfind
        right
        simpa using hfind
    have heq := takeWhile_space_eq_takeWhile_not_whitespace (c :: cs) hfind2
    have hne : c ≠ ' ' := by
      intro hsp
      rw [hsp] at hc
      exact absurd hc (by decide)
    have hblank : isBlank (c :: cs) = false := by
      simp [isBlank, hc]
    have hdrop : (c :: cs).dropWhile isWhitespace = c :: cs := by
      simp [List.dropWhile_cons, hc]
    have htake : List.takeWhile (fun c => c != ' ') (c :: cs) ≠ [] := by
      simp [List.takeWhile_cons, hne]
    simp only [spacePiece, htake, if_false, hblank, firstToken, hdrop, heq]
    simp [hc]

theorem filterMap_spacePiece_of_onelineShaped (ls : List Str)
    (hls : ∀ line ∈ ls, onelineShaped line = true) :
    ls.filterMap spacePiece = (ls.filter (fun line => !isBlank line)).map firstToken := by
  induction ls with
  | nil => rfl
  | cons l ls ih =>
    have hl := spacePiece_of_onelineShaped l (hls l (List.mem_cons_self _ _))
    have ih2 := ih (fun line hmem => hls line (List.mem_cons_of_mem _ hmem))
    by_cases hb : isBlank l = true
    · simp [List.filterMap_cons, hl, hb, ih2]
    · simp [List.filterMap_cons, hl, hb, ih2]

theorem getAllCommit_of_output {F : Type} (w : World F) (h h1 : List Event)
    (dir source target text : Str)
    (hout : getCmdOutput w h gitName (getAllCommitArgs w dir source target) =
      (h1, .ret (.ok text))) :
    getAllCommit w h dir source target = (h1, .ret (.ok (appendCommits [] text))) := by
  simp [getAllCommit, hout]

/-! ## C1 : commit extraction of `getAllCommit` -/

/-- C1 (as stated, refuted): on the output `" abc msg\n"` the code yields no CommitID where
the first whitespace-delimited token is `abc`; on `"abc\tmsg\n"` it yields `abc\tmsg` and on
`"abc\r\n"` it yields `abc\r`, where the first whitespace-delimited token is `abc`. -/
theorem getAllCommit_not_first_whitespace_token :
    ((getAllCommit (printingWorld " abc msg\n".toList) [] ".".toList "feature".toList
        "main".toList).2 = .ret (.ok []) ∧
      specFirstTokens " abc msg\n".toList = ["abc".toList]) ∧
    ((getAllCommit (printingWorld "abc\tmsg\n".toList) [] ".".toList "feature".toList
        "main".toList).2 = .ret (.ok ["abc\tmsg".toList]) ∧
      specFirstTokens "abc\tmsg\n".toList = ["abc".toList]) ∧
    ((getAllCommit (printingWorld "abc\r\n".toList) [] ".".toList "feature".toList
        "main".toList).2 = .ret (.ok ["abc\r".toList]) ∧
      specFirstTokens "abc\r\n".toList = ["abc".toList]) :=
  ⟨⟨rfl, rfl⟩, ⟨rfl, rfl⟩, ⟨rfl, rfl⟩⟩

/-- C1 (amended): whenever `getCmdOutput` returns the output `text` of the history-range
query, `getAllCommit` returns, in line order, the piece before the first `' '` of every line
(piece between `'\n'`) whose piece is not empty; when every line has the `--format=oneline`
shape (empty, or starting with a non-whitespace character and having a space as first
whitespace character) this list is the first whitespace-delimited token of each non-blank
line. -/
theorem getAllCommit_commit_ids {F : Type} (w : World F) (h h1 : List Event)
    (dir source target text : Str)
    (hout : getCmdOutput w h gitName (getAllCommitArgs w dir source target) =
      (h1, .ret (.ok text))) :
    getAllCommit w h dir source target =
        (h1, .ret (.ok ((text.splitOn '\n').filterMap spacePiece))) ∧
      ((∀ line ∈ text.splitOn '\n', onelineShaped line = true) →
        getAllCommit w h dir source target = (h1, .ret (.ok (specFirstTokens text)))) := by
  have hok := getAllCommit_of_output w h h1 dir source target text hout
  have hap := appendCommits_eq [] text
  simp only [List.nil_append] at hap
  refine ⟨by rw [hok, hap], fun hshape => ?_⟩
  rw [hok, hap, filterMap_spacePiece_of_onelineShaped _ hshape, specFirstTokens]

/-- C1 witness: the output `"abc first msg\n\ndef second msg\n"` gives `["abc", "def"]`. -/
theorem getAllCommit_commit_ids_witness :
    getAllCommit (printingWorld "abc first msg\n\ndef second msg\n".toList) []
        ".".toList "feature".toList "main".toList =
      ([Event.exec "git".toList ["-C".toList, ".".toList, "log".toList,
          "--format=oneline".toList, "--right-only".toList, "main..feature".toList]],
        .ret (.ok ["abc".toList, "def".toList])) :=
  (getAllCommit_commit_ids (printingWorld "abc first msg\n\ndef second msg\n".toList) []
    [Event.exec "git".toList ["-C".toList, ".".toList, "log".toList,
      "--format=oneline".toList, "--right-only".toList, "main..feature".toList]]
    ".".toList "feature".toList "main".toList
    "abc first msg\n\ndef second msg\n".toList rfl).2 (by decide)

/-! ## Lemmas on `listenForStdErr` -/

theorem stringsContains_iff (s substr : Str) :
    stringsContains s substr = true ↔ substr <:+: s := by
  induction s with
  | nil => simp [stringsContains, List.infix_nil]
  | cons c cs ih =>
    rw [stringsContains, Bool.or_eq_true, ih, List.infix_cons_iff, List.isPrefixOf_iff_prefix]

theorem foldl_listenStep_logs (lines : List Str) (st : ListenState) :
    (lines.foldl listenStep st).logs = st.logs ++ lines.map classify := by
  induction lines generalizing st with
  | nil => simp
  | cons l ls ih =>
    rw [List.foldl_cons, ih]
    by_cases hl : isIgnorable l = true
    · simp [listenStep, classify, hl]
    · simp [listenStep, classify, hl]

theorem foldl_listenStep_flag (lines : List Str) (st : ListenState) :
    (lines.foldl listenStep st).errEncountered =
      (st.errEncountered || lines.any (fun l => !isIgnorable l)) := by
  induction lines generalizing st with
  | nil => simp
  | cons l ls ih =>
    rw [List.foldl_cons, ih]
    by_cases hl : isIgnorable l = true
    · simp [listenStep, hl]
    · simp [listenStep, hl]

theorem listenForStdErr_some (lines : List Str) :
    listenForStdErr (some lines) =
      (lines.map classify, if lines.any (fun l => !isIgnorable l) then some 1 else none) := by
  simp only [listenForStdErr, foldl_listenStep_logs, foldl_listenStep_flag]
  by_cases hany : (lines.any fun l => !isIgnorable l) = true
  · simp [hany]
  · simp [hany]

/-! ## Lemmas on the fetch loop -/

theorem intercalate_cons_eq (sep : Char) (d : Str) (ds : List Str) :
    [sep].intercalate (d :: ds) = d ++ (ds.map (fun b => sep :: b)).flatten := by
  induction ds generalizing d with
  | nil => simp [List.intercalate, List.intersperse]
  | cons e es ih =>
    have ih2 := ih e
    simp only [List.intercalate] at ih2 ⊢
    simp [List.intersperse, ih2]

theorem length_intercalate_eq (sep : Char) (ds : List Str) :
    ([sep].intercalate ds).length = (ds.map List.length).sum + (ds.length - 1) := by
  cases ds with
  | nil => simp [List.intercalate, List.intersperse]
  | cons d ds =>
    rw [intercalate_cons_eq]
    have hsum : ∀ bs : List Str,
        ((bs.map (fun b => sep :: b)).flatten).length = (bs.map List.length).sum + bs.length := by
      intro bs
      induction bs with
      | nil => rfl
      | cons b bs ih => simp [ih]; omega
    simp [hsum]
    omega

theorem getCmdOutput_fst {F : Type} (w : World F) (h : List Event) (name : Str)
    (args : List Str) : (getCmdOutput w h name args).1 = h ++ [Event.exec name args] := by
  unfold getCmdOutput
  cases w.run h name args with
  | failed e => rfl
  | started stdout stderr =>
    simp only
    by_cases hbig : w.pipeBuffer < byteLength stdout.bytes
    · simp [hbig]
    · simp only [hbig, if_false]
      cases (listenForStdErr (some stderr)).2 <;> rfl

theorem listenForStdErr_code (stderr : Option (List Str)) (code : Nat)
    (hcode : (listenForStdErr stderr).2 = some code) : code = 1 := by
  cases stderr with
  | none => simp [listenForStdErr] at hcode
  | some lines =>
    rw [listenForStdErr_some] at hcode
    by_cases hany : (lines.any fun l => !isIgnorable l) = true
    · simp only [hany, if_true, Option.some.injEq] at hcode
      exact hcode.symm
    · simp [hany] at hcode

theorem getCmdOutput_exit {F : Type} (w : World F) (h : List Event) (name : Str)
    (args : List Str) (code : Nat) (hexit : (getCmdOutput w h name args).2 = .exit code) :
    code = 1 := by
  unfold getCmdOutput at hexit
  cases hrun : w.run h name args with
  | failed e => simp [hrun] at hexit
  | started stdout stderr =>
    simp only [hrun] at hexit
    by_cases hbig : w.pipeBuffer < byteLength stdout.bytes
    · simp [hbig] at hexit
    · simp only [hbig, if_false] at hexit
      cases hl : (listenForStdErr (some stderr)).2 with
      | none => simp [hl] at hexit
      | some c =>
        simp only [hl, Run.exit.injEq] at hexit
        rw [← hexit]
        exact listenForStdErr_code _ _ hl

theorem getCmdOutput_not_blocked {F : Type} (w : World F) (hfit : outputsFit w)
    (h : List Event) (name : Str) (args : List Str) :
    (getCmdOutput w h name args).2 ≠ .blocked := by
  unfold getCmdOutput
  cases hrun : w.run h name args with
  | failed e => simp
  | started stdout stderr =>
    have hle := hfit h name args stdout stderr hrun
    have hbig : ¬ w.pipeBuffer < byteLength stdout.bytes := Nat.not_lt.mpr hle
    simp only [hbig, if_false]
    cases (listenForStdErr (some stderr)).2 <;> simp

theorem getCmdOutput_blocked {F : Type} (w : World F) (h : List Event) (name : Str)
    (args : List Str) (stdout : Reader) (stderr : List Str)
    (hrun : w.run h name args = .started stdout stderr)
    (hbig : w.pipeBuffer < byteLength stdout.bytes) :
    getCmdOutput w h name args = (h ++ [Event.exec name args], .blocked) := by
  simp [getCmdOutput, hrun, hbig]

theorem getCommitDetail_fst {F : Type} (w : World F) (h : List Event) (source c : Str) :
    (getCommitDetail w h source c).1 = h ++ [fetchEvent w source c] :=
  getCmdOutput_fst w h _ _

theorem getCommitDetail_eq {F : Type} (w : World F) (h : List Event) (source c : Str) :
    getCommitDetail w h source c =
      (h ++ [fetchEvent w source c], (getCommitDetail w h source c).2) := by
  rw [← getCommitDetail_fst]

theorem fetchLoop_ok {F : Type} (w : World F) (source : Str) (cs : List Str) :
    ∀ (ds : List Str) (h : List Event) (acc : Str) (isFirst : Bool),
      fetchOutcomes w source h cs = ds.map (fun d => Run.ret (Except.ok d)) →
      fetchLoop w source h cs acc isFirst =
        (h ++ cs.map (fetchEvent w source),
          .ret (.ok (acc ++
            (if isFirst then ['\n'].intercalate ds
              else (ds.map (fun b => '\n' :: b)).flatten)))) := by
  induction cs with
  | nil =>
    intro ds h acc isFirst hout
    cases ds with
    | nil => cases isFirst <;> simp [fetchLoop, List.intercalate]
    | cons d ds => simp [fetchOutcomes] at hout
  | cons c cs ih =>
    intro ds h acc isFirst hout
    cases ds with
    | nil => simp [fetchOutcomes] at hout
    | cons d ds =>
      simp only [fetchOutcomes, List.map_cons, List.cons.injEq] at hout
      obtain ⟨hd, hrest⟩ := hout
      rw [getCommitDetail_fst] at hrest
      have hgcd := getCommitDetail_eq w h source c
      rw [hd] at hgcd
      rw [fetchLoop, hgcd]
      simp only
      rw [ih ds _ _ false hrest]
      cases isFirst
      · simp
      · simp [intercalate_cons_eq]

theorem fetchLoop_stop {F : Type} (w : World F) (source : Str) (pre : List Str) :
    ∀ (ds : List Str) (h : List Event) (acc : Str) (isFirst : Bool) (c : Str) (post : List Str)
      (r : Run (Except GoError Str)),
      fetchOutcomes w source h pre = ds.map (fun d => Run.ret (Except.ok d)) →
      (getCommitDetail w (h ++ pre.map (fetchEvent w source)) source c).2 = r →
      (∀ d, r ≠ .ret (.ok d)) →
      fetchLoop w source h (pre ++ c :: post) acc isFirst =
        (h ++ (pre ++ [c]).map (fetchEvent w source), r) := by
  induction pre with
  | nil =>
    intro ds h acc isFirst c post r _ hr hnot
    simp only [List.map_nil, List.append_nil, List.nil_append] at hr ⊢
    have hgcd := getCommitDetail_eq w h source c
    rw [hr] at hgcd
    rw [fetchLoop, hgcd]
    cases r with
    | blocked => simp
    | exit code => simp
    | ret a =>
      cases a with
      | error e => simp
      | ok d => exact absurd rfl (hnot d)
  | cons p pre ih =>
    intro ds h acc isFirst c post r hout hr hnot
    cases ds with
    | nil => simp [fetchOutcomes] at hout
    | cons d ds =>
      simp only [fetchOutcomes, List.map_cons, List.cons.injEq] at hout
      obtain ⟨hd, hrest⟩ := hout
      rw [getCommitDetail_fst] at hrest
      have hgcd := getCommitDetail_eq w h source p
      rw [hd] at hgcd
      simp only [List.map_cons, List.cons_append] at hr ⊢
      rw [fetchLoop, hgcd]
      simp only
      have hr2 : (getCommitDetail w ((h ++ [fetchEvent w source p]) ++
          pre.map (fetchEvent w source)) source c).2 = r := by
        rw [List.append_assoc]
        exact hr
      rw [ih ds _ _ false c post r hrest hr2 hnot]
      simp

theorem fetchOutcomes_cases {F : Type} (w : World F) (source : Str) (cs : List Str) :
    ∀ h : List Event,
      (∃ ds : List Str, fetchOutcomes w source h cs = ds.map (fun d => Run.ret (Except.ok d))) ∨
      (∃ (pre : List Str) (c : Str) (post ds : List Str),
        cs = pre ++ c :: post ∧
        fetchOutcomes w source h pre = ds.map (fun d => Run.ret (Except.ok d)) ∧
        ∀ d, (getCommitDetail w (h ++ pre.map (fetchEvent w source)) source c).2 ≠
          .ret (.ok d)) := by
  induction cs with
  | nil =>
    intro h
    exact Or.inl ⟨[], rfl⟩
  | cons c cs ih =>
    intro h
    by_cases hc : ∃ d, (getCommitDetail w h source c).2 = .ret (.ok d)
    · obtain ⟨d, hd⟩ := hc
      rcases ih (h ++ [fetchEvent w source c]) with ⟨ds, hds⟩ | ⟨pre, c2, post, ds, hcs, hds, hno⟩
      · left
        refine ⟨d :: ds, ?_⟩
        simp [fetchOutcomes, hd, getCommitDetail_fst, hds]
      · right
        refine ⟨c :: pre, c2, post, d :: ds, by simp [hcs], ?_, ?_⟩
        · simp [fetchOutcomes, hd, getCommitDetail_fst, hds]
        · simpa [List.append_assoc] using hno
    · right
      refine ⟨[], c, cs, [], rfl, rfl, ?_⟩
      intro d hd
      exact hc ⟨d, by simpa using hd⟩

theorem fetchOutcomes_length {F : Type} (w : World F) (source : Str) (cs : List Str) :
    ∀ h : List Event, (fetchOutcomes w source h cs).length = cs.length := by
  induction cs with
  | nil => intro h; rfl
  | cons c cs ih => intro h; simp [fetchOutcomes, ih]

theorem fetchLoop_exit {F : Type} (w : World F) (source : Str) (cs : List Str) :
    ∀ (h : List Event) (acc : Str) (isFirst : Bool) (code : Nat),
      (fetchLoop w source h cs acc isFirst).2 = .exit code → code = 1 := by
  induction cs with
  | nil => intro h acc isFirst code hexit; simp [fetchLoop] at hexit
  | cons c cs ih =>
    intro h acc isFirst code hexit
    have hgcd := getCommitDetail_eq w h source c
    cases hr : (getCommitDetail w h source c).2 with
    | blocked =>
      rw [hr] at hgcd
      rw [fetchLoop, hgcd] at hexit
      simp at hexit
    | exit c2 =>
      rw [hr] at hgcd
      rw [fetchLoop, hgcd] at hexit
      simp only [Run.exit.injEq] at hexit
      rw [← hexit]
      exact getCmdOutput_exit w h _ _ c2 hr
    | ret a =>
      rw [hr] at hgcd
      cases a with
      | error e =>
        rw [fetchLoop, hgcd] at hexit
        simp at hexit
      | ok d =>
        rw [fetchLoop, hgcd] at hexit
        exact ih _ _ _ _ hexit

theorem fetchLoop_not_blocked {F : Type} (w : World F) (hfit : outputsFit w) (source : Str)
    (cs : List Str) :
    ∀ (h : List Event) (acc : Str) (isFirst : Bool),
      (fetchLoop w source h cs acc isFirst).2 ≠ .blocked := by
  induction cs with
  | nil => intro h acc isFirst; simp [fetchLoop]
  | cons c cs ih =>
    intro h acc isFirst
    have hgcd := getCommitDetail_eq w h source c
    cases hr : (getCommitDetail w h source c).2 with
    | blocked => exact absurd hr (getCmdOutput_not_blocked w hfit h _ _)
    | exit c2 =>
      rw [hr] at hgcd
      rw [fetchLoop, hgcd]
      simp
    | ret a =>
      rw [hr] at hgcd
      cases a with
      | error e =>
        rw [fetchLoop, hgcd]
        simp
      | ok d =>
        rw [fetchLoop, hgcd]
        exact ih _ _ _

/-! ## Lemmas on commit resolution -/

theorem getAllCommit_cases {F : Type} (w : World F) (h : List Event)
    (dir source target : Str) :
    (getAllCommit w h dir source target).2 = .exit 1 ∨
    (∃ e, (getAllCommit w h dir source target).2 = .ret (.error e)) ∨
    (∃ cs, (getAllCommit w h dir source target).2 = .ret (.ok cs)) ∨
    ((getAllCommit w h dir source target).2 = .blocked ∧
      (getCmdOutput w h gitName (getAllCommitArgs w dir source target)).2 = .blocked) := by
  unfold getAllCommit
  cases hout : getCmdOutput w h gitName (getAllCommitArgs w dir source target) with
  | mk h1 r =>
    cases r with
    | blocked => exact Or.inr (Or.inr (Or.inr ⟨rfl, rfl⟩))
    | exit code =>
      have hcode := getCmdOutput_exit w h gitName (getAllCommitArgs w dir source target) code
        (by rw [hout])
      subst hcode
      exact Or.inl rfl
    | ret a =>
      cases a with
      | error e => exact Or.inr (Or.inl ⟨e, rfl⟩)
      | ok bytes => exact Or.inr (Or.inr (Or.inl ⟨_, rfl⟩))

theorem resolveCommits_disabled {F : Type} (w : World F) (h : List Event) (source : Str)
    (flags : Option GitRequestFlags) (commitsFile : Str)
    (hfile : commitsFile = []) (hpair : branchPairGiven flags = false) :
    resolveCommits w h source flags commitsFile = (h, .ret (.ok ([], false))) := by
  subst hfile
  cases flags with
  | none => simp [resolveCommits, resolveBranchPair, resolveCommitsFile]
  | some fl =>
    have hnot : ¬ (fl.SourceBranch ≠ [] ∧ fl.TargetBranch ≠ []) := by
      intro hboth
      simp [branchPairGiven, List.isEmpty_iff, hboth.1, hboth.2] at hpair
    simp [resolveCommits, resolveBranchPair, resolveCommitsFile, hnot]

theorem resolveCommitsFile_cases {F : Type} (w : World F) (h : List Event)
    (commitsFile : Str) (commits : List Str) (enabled : Bool)
    (hen : commitsFile ≠ [] ∨ enabled = true) :
    (∃ e, (resolveCommitsFile w h commitsFile commits enabled).2 = .error e) ∨
    (∃ cs, (resolveCommitsFile w h commitsFile commits enabled).2 = .ok (cs, true)) := by
  unfold resolveCommitsFile
  by_cases hfile : commitsFile = []
  · have hen2 : enabled = true := by
      rcases hen with hen | hen
      · exact absurd hfile hen
      · exact hen
    subst hen2
    simp only [hfile, ne_eq, not_true_eq_false, if_false]
    exact Or.inr ⟨commits, rfl⟩
  · simp only [ne_eq, hfile, not_false_eq_true, if_true]
    cases w.osOpen h commitsFile with
    | error e => exact Or.inl ⟨e, rfl⟩
    | ok file =>
      simp only
      cases ioutilReadAll file with
      | error e => exact Or.inl ⟨e, rfl⟩
      | ok content => exact Or.inr ⟨_, rfl⟩

theorem resolveCommits_enabled {F : Type} (w : World F) (h : List Event) (source : Str)
    (flags : Option GitRequestFlags) (commitsFile : Str)
    (hen : commitsFile ≠ [] ∨ branchPairGiven flags = true) :
    (resolveCommits w h source flags commitsFile).2 = .exit 1 ∨
    (∃ e, (resolveCommits w h source flags commitsFile).2 = .ret (.error e)) ∨
    (∃ cs, (resolveCommits w h source flags commitsFile).2 = .ret (.ok (cs, true))) ∨
    ((resolveCommits w h source flags commitsFile).2 = .blocked ∧ ¬ outputsFit w) := by
  by_cases hpair : branchPairGiven flags = true
  · cases flags with
    | none => simp [branchPairGiven] at hpair
    | some fl =>
      have hboth : fl.SourceBranch ≠ [] ∧ fl.TargetBranch ≠ [] := by
        simpa [branchPairGiven, List.isEmpty_iff] using hpair
      simp only [resolveCommits, resolveBranchPair, hboth, ne_eq, not_false_eq_true, and_self,
        if_true]
      cases hga : getAllCommit w h source fl.SourceBranch fl.TargetBranch with
      | mk h1 r =>
        rcases getAllCommit_cases w h source fl.SourceBranch fl.TargetBranch with
          hc | ⟨e, hc⟩ | ⟨cs, hc⟩ | ⟨hc, hcmd⟩
        · rw [hga] at hc
          simp only at hc
          subst hc
          exact Or.inl rfl
        · rw [hga] at hc
          simp only at hc
          subst hc
          exact Or.inr (Or.inl ⟨e, rfl⟩)
        · rw [hga] at hc
          simp only at hc
          subst hc
          simp only
          rcases resolveCommitsFile_cases w h1 commitsFile cs true (Or.inr rfl) with
            ⟨e, he⟩ | ⟨cs2, hcs2⟩
          · exact Or.inr (Or.inl ⟨e, by rw [he]⟩)
          · exact Or.inr (Or.inr (Or.inl ⟨cs2, by rw [hcs2]⟩))
        · rw [hga] at hc
          simp only at hc
          subst hc
          exact Or.inr (Or.inr (Or.inr
            ⟨rfl, fun hfit => getCmdOutput_not_blocked w hfit h _ _ hcmd⟩))
  · have hfile : commitsFile ≠ [] := by
      rcases hen with hen | hen
      · exact hen
      · exact absurd hen hpair
    have hbp : resolveBranchPair w h source flags = (h, .ret (.ok ([], false))) := by
      cases flags with
      | none => rfl
      | some fl =>
        have hnot : ¬ (fl.SourceBranch ≠ [] ∧ fl.TargetBranch ≠ []) := by
          intro hboth
          simp [branchPairGiven, List.isEmpty_iff, hboth.1, hboth.2] at hpair
        simp [resolveBranchPair, hnot]
    simp only [resolveCommits, hbp]
    rcases resolveCommitsFile_cases w h commitsFile [] false (Or.inl hfile) with
      ⟨e, he⟩ | ⟨cs2, hcs2⟩
    · exact Or.inr (Or.inl ⟨e, by rw [he]⟩)
    · exact Or.inr (Or.inr (Or.inl ⟨cs2, by rw [hcs2]⟩))

theorem gitLogGitRequest_of_resolved {F : Type} (w : World F) (h h1 : List Event)
    (source : Str) (flags : Option GitRequestFlags) (commitsFile : Str) (commits : List Str)
    (hres : resolveCommits w h source flags commitsFile = (h1, .ret (.ok (commits, true)))) :
    gitLogGitRequest w h source flags commitsFile =
      (match fetchLoop w source h1 commits [] true with
        | (h2, .blocked) => (h2, .blocked)
        | (h2, .exit code) => (h2, .exit code)
        | (h2, .ret (.error e)) => (h2, .ret (none, some e))
        | (h2, .ret (.ok changesDetail)) =>
          (h2, .ret (some { err := none, out := some (stringsNewReader changesDetail) }, none))) := by
  simp [gitLogGitRequest, hres]

theorem fetchOutcomes_append {F : Type} (w : World F) (source : Str) (pre : List Str) :
    ∀ (h : List Event) (post : List Str),
      fetchOutcomes w source h (pre ++ post) =
        fetchOutcomes w source h pre ++
          fetchOutcomes w source (h ++ pre.map (fetchEvent w source)) post := by
  induction pre with
  | nil => intro h post; simp [fetchOutcomes]
  | cons p pre ih =>
    intro h post
    simp [fetchOutcomes, ih, getCommitDetail_fst, List.append_assoc]

theorem fetchLoop_fst_take {F : Type} (w : World F) (source : Str) (cs : List Str)
    (h : List Event) (acc : Str) (isFirst : Bool) :
    ∃ k, k ≤ cs.length ∧
      (fetchLoop w source h cs acc isFirst).1 = h ++ (cs.take k).map (fetchEvent w source) := by
  rcases fetchOutcomes_cases w source cs h with ⟨ds, hds⟩ | ⟨pre, c, post, ds, hcs, hds, hno⟩
  · refine ⟨cs.length, le_refl _, ?_⟩
    rw [fetchLoop_ok w source cs ds h acc isFirst hds, List.take_length]
  · refine ⟨pre.length + 1, ?_, ?_⟩
    · rw [hcs]
      simp
    · rw [hcs, fetchLoop_stop w source pre ds h acc isFirst c post _ hds rfl hno]
      simp [List.take_append_eq_append_take]

theorem filterMap_spacePiece_filter (ls : List Str) :
    ls.filterMap spacePiece = (ls.filter (fun l => !l.isEmpty)).filterMap spacePiece := by
  induction ls with
  | nil => rfl
  | cons l ls ih =>
    cases l with
    | nil => simpa [spacePiece] using ih
    | cons x xs => simp [List.filter_cons, List.filterMap_cons, ih]

theorem not_mem_filterMap_spacePiece (ls : List Str) : [] ∉ ls.filterMap spacePiece := by
  intro hmem
  rw [List.mem_filterMap] at hmem
  obtain ⟨l, _, hl⟩ := hmem
  unfold spacePiece at hl
  by_cases ht : List.takeWhile (fun c => c != ' ') l = []
  · simp [ht] at hl
  · simp [ht] at hl

theorem resolveCommits_both {F : Type} (w : World F) (h h1 : List Event) (source : Str)
    (fl : GitRequestFlags) (commitsFile : Str) (branchCommits : List Str) (rd : Reader)
    (content : Str)
    (hs : fl.SourceBranch ≠ []) (ht : fl.TargetBranch ≠ []) (hf : commitsFile ≠ [])
    (hbranch : getAllCommit w h source fl.SourceBranch fl.TargetBranch =
      (h1, .ret (.ok branchCommits)))
    (hopen : w.osOpen h1 commitsFile = .ok rd) (hread : ioutilReadAll rd = .ok content) :
    resolveCommits w h source (some fl) commitsFile =
      (h1 ++ [Event.openFile commitsFile],
        .ret (.ok (branchCommits ++ appendCommits [] content, true))) := by
  simp only [resolveCommits, resolveBranchPair, hs, ht, ne_eq, not_false_eq_true, and_self,
    if_true, hbranch, resolveCommitsFile, hf, hopen, hread]
  rw [appendCommits_eq branchCommits, appendCommits_eq []]
  simp

/-! ## A patch larger than the pipe buffer -/

theorem byteLength_replicate_plus (n : Nat) : byteLength (List.replicate n '+') = n := by
  have hplus : Char.utf8Size '+' = 1 := by decide
  simp [byteLength, List.map_replicate, List.sum_replicate, hplus]

theorem gitLogGitRequest_blocked_on_large_patch :
    gitLogGitRequest (scriptedWorld "c1 one\nc2 two\nc3 three\n".toList [] largeForC2) []
        ".".toList (some featureMain) [] =
      ([Event.exec "git".toList ["-C".toList, ".".toList, "log".toList,
          "--format=oneline".toList, "--right-only".toList, "main..feature".toList],
        Event.exec "git".toList ["-C".toList, ".".toList, "show".toList, "-p".toList,
          "-U0".toList, "c1".toList],
        Event.exec "git".toList ["-C".toList, ".".toList, "show".toList, "-p".toList,
          "-U0".toList, "c2".toList]],
        .blocked) := by
  have hres : resolveCommits (scriptedWorld "c1 one\nc2 two\nc3 three\n".toList [] largeForC2)
      [] ".".toList (some featureMain) [] =
      ([Event.exec "git".toList ["-C".toList, ".".toList, "log".toList,
          "--format=oneline".toList, "--right-only".toList, "main..feature".toList]],
        .ret (.ok (["c1".toList] ++ "c2".toList :: ["c3".toList], true))) := rfl
  have hbig : (scriptedWorld "c1 one\nc2 two\nc3 three\n".toList [] largeForC2).pipeBuffer <
      byteLength ({ bytes := List.replicate 65537 '+', fail := none } : Reader).bytes := by
    rw [byteLength_replicate_plus]
    decide
  have hpre : fetchOutcomes (scriptedWorld "c1 one\nc2 two\nc3 three\n".toList [] largeForC2)
      ".".toList
      [Event.exec "git".toList ["-C".toList, ".".toList, "log".toList,
        "--format=oneline".toList, "--right-only".toList, "main..feature".toList]]
      ["c1".toList] = ["patch of c1".toList].map (fun d => Run.ret (Except.ok d)) := rfl
  have hc2 : (getCommitDetail (scriptedWorld "c1 one\nc2 two\nc3 three\n".toList [] largeForC2)
      ([Event.exec "git".toList ["-C".toList, ".".toList, "log".toList,
        "--format=oneline".toList, "--right-only".toList, "main..feature".toList]] ++
        ["c1".toList].map (fetchEvent
          (scriptedWorld "c1 one\nc2 two\nc3 three\n".toList [] largeForC2) ".".toList))
      ".".toList "c2".toList).2 = .blocked :=
    congrArg Prod.snd (getCmdOutput_blocked _ _ _ _
      { bytes := List.replicate 65537 '+', fail := none } [] rfl hbig)
  rw [gitLogGitRequest_of_resolved _ _ _ _ _ _ _ hres,
    fetchLoop_stop _ _ ["c1".toList] ["patch of c1".toList] _ [] true "c2".toList
      ["c3".toList] .blocked hpre hc2 (by intro d hd; cases hd)]
  rfl

/-! ## C4 : classification of a diagnostic line -/

/-- C4: a line of the diagnostic stream is treated as ignorable by `listenForStdErr` (logged
as a warning, error flag untouched, so it does not change whether the process exits) if and
only if it contains one of the three benign substrings; every other line is fatal (logged as
an error, and the process exits with code 1).  The line
`exhaustive rename detection was skipped due to too many files.` is ignorable and
`fatal: bad object abc123` is fatal. -/
theorem listenForStdErr_classification (line : Str) :
    (isIgnorable line = true ↔ ∃ s ∈ benignSubstrings, s <:+: line) ∧
    (∀ st : ListenState,
      listenStep st line =
        if isIgnorable line then
          { logs := st.logs ++ [LogEntry.warn line], errEncountered := st.errEncountered }
        else { logs := st.logs ++ [LogEntry.error line], errEncountered := true }) ∧
    (∀ before after : List Str,
      (listenForStdErr (some (before ++ line :: after))).1.get? before.length =
        some (if isIgnorable line then LogEntry.warn line else LogEntry.error line)) ∧
    (∀ before after : List Str,
      (listenForStdErr (some (before ++ line :: after))).2 =
        if isIgnorable line then (listenForStdErr (some (before ++ after))).2 else some 1) ∧
    isIgnorable "exhaustive rename detection was skipped due to too many files.".toList = true ∧
    isIgnorable "fatal: bad object abc123".toList = false := by
  refine ⟨?_, ?_, ?_, ?_, by decide, by decide⟩
  · simp only [isIgnorable, Bool.or_eq_true, stringsContains_iff, benignSubstrings,
      List.mem_cons, List.mem_singleton, List.not_mem_nil, or_false, exists_eq_or_imp,
      exists_eq_left, or_assoc]
  · intro st
    by_cases hl : isIgnorable line = true
    · simp [listenStep, hl]
    · simp [listenStep, hl]
  · intro before after
    rw [listenForStdErr_some]
    show (List.map classify (before ++ line :: after)).get? before.length = _
    rw [List.get?_eq_getElem?, List.map_append, List.getElem?_append_right (by simp)]
    simp [classify]
  · intro before after
    rw [listenForStdErr_some, listenForStdErr_some]
    by_cases hl : isIgnorable line = true
    · simp [hl]
    · simp [hl]

/-! ## C5 : termination by `listenForStdErr` -/

/-- C5: `listenForStdErr` ends the process (always with exit code 1) if and only if the
stream is present and at least one of its lines is fatal; an absent stream, an empty stream
and a stream of ignorable lines only make it return, whatever their length.  Every line of
the stream is consumed and logged, in order, before the exit: also the lines after the first
fatal one. -/
theorem listenForStdErr_exit (stderr : Option (List Str)) :
    ((listenForStdErr stderr).2 = some 1 ↔
      ∃ lines, stderr = some lines ∧ ∃ line ∈ lines, isIgnorable line = false) ∧
    ((listenForStdErr stderr).2 = none ↔
      ∀ lines, stderr = some lines → ∀ line ∈ lines, isIgnorable line = true) ∧
    listenForStdErr none = ([], none) ∧
    listenForStdErr (some []) = ([], none) ∧
    (∀ lines, stderr = some lines →
      (listenForStdErr stderr).1 =
        lines.map (fun l => if isIgnorable l then LogEntry.warn l else LogEntry.error l)) := by
  refine ⟨?_, ?_, rfl, rfl, ?_⟩
  · cases stderr with
    | none => simp [listenForStdErr]
    | some lines =>
      rw [listenForStdErr_some]
      by_cases hany : (lines.any fun l => !isIgnorable l) = true
      · simp only [hany, if_true, Option.some.injEq, exists_eq_left', true_iff]
        simpa using hany
      · simp only [hany, if_false, Option.some.injEq, exists_eq_left', false_iff]
        simpa using hany
  · cases stderr with
    | none => simp [listenForStdErr]
    | some lines =>
      rw [listenForStdErr_some]
      by_cases hany : (lines.any fun l => !isIgnorable l) = true
      · simp only [hany, if_true, Option.some.injEq, forall_eq']
        simp only [List.any_eq_true, Bool.not_eq_true'] at hany
        obtain ⟨l, hmem, hl⟩ := hany
        constructor
        · intro hcontra
          cases hcontra
        · intro hall
          rw [hall l hmem] at hl
          cases hl
      · simp only [hany, if_false, Option.some.injEq, forall_eq', true_iff]
        simpa using hany
  · intro lines hlines
    subst hlines
    rw [listenForStdErr_some]
    rfl

/-- C5 witness: a stream of two ignorable lines around one fatal line logs all three lines
(warning, error, warning) and ends the process with exit code 1. -/
theorem listenForStdErr_exit_witness :
    (listenForStdErr (some ["inexact rename detection was skipped due to too many files.".toList,
        "fatal: bad object abc123".toList,
        "you may want to set your diff.renameLimit variable to at least 1000".toList])).1 =
      ["inexact rename detection was skipped due to too many files.".toList,
        "fatal: bad object abc123".toList,
        "you may want to set your diff.renameLimit variable to at least 1000".toList].map
        (fun l => if isIgnorable l then LogEntry.warn l else LogEntry.error l) :=
  (listenForStdErr_exit _).2.2.2.2 _ rfl

/-! ## C10 : the command of `GitDiff` -/

/-- C10: `GitDiff` launches exactly one command, `git -C clean(dir) diff -U0 --staged .`
when the staged flag is set and `git -C clean(dir) diff -U0 .` when it is not; the two
argument vectors differ, and only by the argument `--staged` at index 4; what is returned is
the parse of the output stream of that one invocation (or its launch error). -/
theorem GitDiff_command {F : Type} (w : World F) (h : List Event) (source : Str) :
    (GitDiff w h source true).1 =
        h ++ [Event.exec "git".toList
          ["-C".toList, w.filepathClean source, "diff".toList, "-U0".toList,
            "--staged".toList, ".".toList]] ∧
    (GitDiff w h source false).1 =
        h ++ [Event.exec "git".toList
          ["-C".toList, w.filepathClean source, "diff".toList, "-U0".toList, ".".toList]] ∧
    (["-C".toList, w.filepathClean source, "diff".toList, "-U0".toList, "--staged".toList,
        ".".toList] ≠
      ["-C".toList, w.filepathClean source, "diff".toList, "-U0".toList, ".".toList]) ∧
    (["-C".toList, w.filepathClean source, "diff".toList, "-U0".toList, "--staged".toList,
        ".".toList].eraseIdx 4 =
      ["-C".toList, w.filepathClean source, "diff".toList, "-U0".toList, ".".toList]) ∧
    (GitDiff w h source true).2.files =
      (match w.run h "git".toList ["-C".toList, w.filepathClean source, "diff".toList,
          "-U0".toList, "--staged".toList, ".".toList] with
        | .failed e => .error e
        | .started stdout _ => w.gitdiffParse stdout) ∧
    (GitDiff w h source false).2.files =
      (match w.run h "git".toList ["-C".toList, w.filepathClean source, "diff".toList,
          "-U0".toList, ".".toList] with
        | .failed e => .error e
        | .started stdout _ => w.gitdiffParse stdout) := by
  refine ⟨?_, ?_, ?_, rfl, ?_, ?_⟩
  · simp only [GitDiff, if_true, gitName]
    cases w.run h "git".toList ["-C".toList, w.filepathClean source, "diff".toList,
      "-U0".toList, "--staged".toList, ".".toList] <;> rfl
  · simp only [GitDiff, Bool.false_eq_true, if_false, gitName]
    cases w.run h "git".toList ["-C".toList, w.filepathClean source, "diff".toList,
      "-U0".toList, ".".toList] <;> rfl
  · intro heq
    have hlen := congrArg List.length heq
    simp at hlen
  · simp only [GitDiff, if_true, gitName]
    cases w.run h "git".toList ["-C".toList, w.filepathClean source, "diff".toList,
      "-U0".toList, "--staged".toList, ".".toList] <;> rfl
  · simp only [GitDiff, Bool.false_eq_true, if_false, gitName]
    cases w.run h "git".toList ["-C".toList, w.filepathClean source, "diff".toList,
      "-U0".toList, ".".toList] <;> rfl

/-! ## C3 : the assembled document -/

/-- C3: when the resolved commit list is not empty and every single-commit fetch succeeds,
`gitLogGitRequest` fetches the commits in list order and returns the document made of the
per-commit blocks in that order joined by `"\n"`: the first block followed by each further
block preceded by one `"\n"` (count - 1 separators, none before the first block or after the
last); its length is the sum of the block lengths plus count - 1. -/
theorem gitLogGitRequest_document {F : Type} (w : World F) (h h1 : List Event) (source : Str)
    (flags : Option GitRequestFlags) (commitsFile : Str) (commits blocks : List Str)
    (hres : resolveCommits w h source flags commitsFile = (h1, .ret (.ok (commits, true))))
    (hne : commits ≠ [])
    (hfetch : fetchOutcomes w source h1 commits = blocks.map (fun d => Run.ret (Except.ok d))) :
    gitLogGitRequest w h source flags commitsFile =
        (h1 ++ commits.map (fetchEvent w source),
          .ret (some { out := some (stringsNewReader (['\n'].intercalate blocks)), err := none },
            none)) ∧
      blocks.length = commits.length ∧
      (∃ b bs, blocks = b :: bs ∧
        ['\n'].intercalate blocks = b ++ (bs.map (fun d => '\n' :: d)).flatten ∧
        (bs.map (fun d => '\n' :: d)).length = commits.length - 1) ∧
      (['\n'].intercalate blocks).length = (blocks.map List.length).sum + (commits.length - 1) := by
  have hlen : blocks.length = commits.length := by
    have h1len := congrArg List.length hfetch
    rw [fetchOutcomes_length, List.length_map] at h1len
    exact h1len.symm
  refine ⟨?_, hlen, ?_, ?_⟩
  · rw [gitLogGitRequest_of_resolved w h h1 source flags commitsFile commits hres,
      fetchLoop_ok w source commits blocks h1 [] true hfetch]
    simp
  · cases blocks with
    | nil =>
      simp only [List.length_nil] at hlen
      exact absurd (List.length_eq_zero.mp hlen.symm) hne
    | cons b bs =>
      refine ⟨b, bs, rfl, intercalate_cons_eq _ _ _, ?_⟩
      simp only [List.length_cons] at hlen
      simp only [List.length_map]
      omega
  · rw [length_intercalate_eq, hlen]

/-- C3 witness: for the branch pair `feature` / `main` whose range query lists `c1`, `c2`,
`c3`, the document is `patch of c1`, `patch of c2`, `patch of c3` joined by `"\n"`. -/
theorem gitLogGitRequest_document_witness :
    gitLogGitRequest (scriptedWorld "c1 one\nc2 two\nc3 three\n".toList [] plainPatch) []
        ".".toList (some featureMain) [] =
      ([Event.exec "git".toList ["-C".toList, ".".toList, "log".toList,
          "--format=oneline".toList, "--right-only".toList, "main..feature".toList],
        Event.exec "git".toList ["-C".toList, ".".toList, "show".toList, "-p".toList,
          "-U0".toList, "c1".toList],
        Event.exec "git".toList ["-C".toList, ".".toList, "show".toList, "-p".toList,
          "-U0".toList, "c2".toList],
        Event.exec "git".toList ["-C".toList, ".".toList, "show".toList, "-p".toList,
          "-U0".toList, "c3".toList]],
        .ret (some { out := some (stringsNewReader
          "patch of c1\npatch of c2\npatch of c3".toList), err := none }, none)) :=
  (gitLogGitRequest_document
    (scriptedWorld "c1 one\nc2 two\nc3 three\n".toList [] plainPatch) []
    [Event.exec "git".toList ["-C".toList, ".".toList, "log".toList,
      "--format=oneline".toList, "--right-only".toList, "main..feature".toList]]
    ".".toList (some featureMain) [] ["c1".toList, "c2".toList, "c3".toList]
    ["patch of c1".toList, "patch of c2".toList, "patch of c3".toList]
    rfl (by decide) rfl).1

/-! ## C8 : separators and empty blocks -/

/-- C8 (as stated, refuted): with the commits `c1`, `c2`, `c3` where the fetch of `c2`
succeeds with an empty patch text, the document is `"patch of c1\n\npatch of c3"`, with a
separator for the empty block, and not the non-empty blocks joined by a single `"\n"`, which
is `"patch of c1\npatch of c3"`. -/
theorem gitLogGitRequest_empty_block_separator :
    (gitLogGitRequest (scriptedWorld "c1 one\nc2 two\nc3 three\n".toList [] emptyForC2) []
        ".".toList (some featureMain) []).2 =
      .ret (some { err := none,
                   out := some (stringsNewReader "patch of c1\n\npatch of c3".toList) },
        none) ∧
    fetchOutcomes (scriptedWorld "c1 one\nc2 two\nc3 three\n".toList [] emptyForC2) ".".toList
        [Event.exec "git".toList ["-C".toList, ".".toList, "log".toList,
          "--format=oneline".toList, "--right-only".toList, "main..feature".toList]]
        ["c1".toList, "c2".toList, "c3".toList] =
      [.ret (.ok "patch of c1".toList), .ret (.ok []), .ret (.ok "patch of c3".toList)] ∧
    ['\n'].intercalate
        (["patch of c1".toList, [], "patch of c3".toList].filter (fun b => !b.isEmpty)) =
      "patch of c1\npatch of c3".toList ∧
    "patch of c1\n\npatch of c3".toList ≠ "patch of c1\npatch of c3".toList :=
  ⟨rfl, rfl, rfl, by decide⟩

/-- C8 (amended): when every single-commit fetch succeeds, the document is all the blocks,
empty or not, joined by a single `"\n"`: one separator between every two consecutive
blocks, none before the first or after the last.  It is the non-empty blocks joined by
`"\n"` exactly when no block is empty or the only block is empty. -/
theorem gitLogGitRequest_separators {F : Type} (w : World F) (h h1 : List Event)
    (source : Str) (flags : Option GitRequestFlags) (commitsFile : Str)
    (commits blocks : List Str)
    (hres : resolveCommits w h source flags commitsFile = (h1, .ret (.ok (commits, true))))
    (hfetch : fetchOutcomes w source h1 commits = blocks.map (fun d => Run.ret (Except.ok d))) :
    (gitLogGitRequest w h source flags commitsFile).2 =
        .ret (some { out := some (stringsNewReader (['\n'].intercalate blocks)), err := none },
          none) ∧
      (['\n'].intercalate blocks = ['\n'].intercalate (blocks.filter (fun b => !b.isEmpty)) ↔
        (∀ b ∈ blocks, b ≠ []) ∨ blocks = [[]]) := by
  constructor
  · rw [gitLogGitRequest_of_resolved w h h1 source flags commitsFile commits hres,
      fetchLoop_ok w source commits blocks h1 [] true hfetch]
    simp
  · constructor
    · intro heq
      by_cases hall : ∀ b ∈ blocks, b ≠ []
      · exact Or.inl hall
      · right
        have hlen := congrArg List.length heq
        rw [length_intercalate_eq, length_intercalate_eq] at hlen
        have hsum : ∀ bs : List Str,
            ((bs.filter (fun b => !b.isEmpty)).map List.length).sum =
              (bs.map List.length).sum := by
          intro bs
          induction bs with
          | nil => rfl
          | cons b bs ih =>
            cases b with
            | nil => simpa using ih
            | cons x xs => simp [List.filter_cons, ih]
        rw [hsum] at hlen
        have hlt : (blocks.filter (fun b => !b.isEmpty)).length < blocks.length := by
          rcases Nat.lt_or_ge (blocks.filter (fun b => !b.isEmpty)).length blocks.length with
            hlt | hge
          · exact hlt
          · exfalso
            apply hall
            have hfe : blocks.filter (fun b => !b.isEmpty) = blocks :=
              List.Sublist.eq_of_length_le (List.filter_sublist blocks) hge
            intro b hb
            rw [← hfe] at hb
            have hb2 := (List.mem_filter.mp hb).2
            intro hnil
            simp [hnil] at hb2
        have hone : blocks.length = 1 := by
          generalize (blocks.filter (fun b => !b.isEmpty)).length = m at hlen hlt
          omega
        obtain ⟨b, hb⟩ := List.length_eq_one.mp hone
        subst hb
        have hbnil : b = [] := by
          by_contra hb
          apply hall
          intro b2 hb2
          rw [List.mem_singleton.mp hb2]
          exact hb
        rw [hbnil]
    · rintro (hall | hone)
      · have hfe : blocks.filter (fun b => !b.isEmpty) = blocks := by
          apply List.filter_eq_self.mpr
          intro b hb
          have := hall b hb
          cases b with
          | nil => exact absurd rfl this
          | cons x xs => rfl
        rw [hfe]
      · subst hone
        rfl

/-- C8 witness: with three non-empty blocks the document is the blocks joined by `"\n"`. -/
theorem gitLogGitRequest_separators_witness :
    (gitLogGitRequest (scriptedWorld "c1 one\nc2 two\nc3 three\n".toList [] plainPatch) []
        ".".toList (some featureMain) []).2 =
      .ret (some { out := some (stringsNewReader
        "patch of c1\npatch of c2\npatch of c3".toList), err := none }, none) :=
  (gitLogGitRequest_separators
    (scriptedWorld "c1 one\nc2 two\nc3 three\n".toList [] plainPatch) []
    [Event.exec "git".toList ["-C".toList, ".".toList, "log".toList,
      "--format=oneline".toList, "--right-only".toList, "main..feature".toList]]
    ".".toList (some featureMain) [] ["c1".toList, "c2".toList, "c3".toList]
    ["patch of c1".toList, "patch of c2".toList, "patch of c3".toList]
    rfl rfl).1

/-! ## C7 : fail-fast assembly -/

/-- C7 (as stated, refuted): the range query lists `c1`, `c2`, `c3` and the fetch of `c2`
fails with the diagnostic line `fatal: bad object c2`: the outcome of that fetch is not a
patch text, yet `gitLogGitRequest` returns no error, the process exits with code 1. -/
theorem gitLogGitRequest_exits_on_failed_fetch :
    fetchOutcomes (scriptedWorld "c1 one\nc2 two\nc3 three\n".toList [] fatalForC2) ".".toList
        [Event.exec "git".toList ["-C".toList, ".".toList, "log".toList,
          "--format=oneline".toList, "--right-only".toList, "main..feature".toList]]
        ["c1".toList, "c2".toList, "c3".toList] =
      [.ret (.ok "patch of c1".toList), .exit 1, .ret (.ok "patch of c3".toList)] ∧
    gitLogGitRequest (scriptedWorld "c1 one\nc2 two\nc3 three\n".toList [] fatalForC2) []
        ".".toList (some featureMain) [] =
      ([Event.exec "git".toList ["-C".toList, ".".toList, "log".toList,
          "--format=oneline".toList, "--right-only".toList, "main..feature".toList],
        Event.exec "git".toList ["-C".toList, ".".toList, "show".toList, "-p".toList,
          "-U0".toList, "c1".toList],
        Event.exec "git".toList ["-C".toList, ".".toList, "show".toList, "-p".toList,
          "-U0".toList, "c2".toList]],
        .exit 1) ∧
    ¬ ∃ e, (gitLogGitRequest (scriptedWorld "c1 one\nc2 two\nc3 three\n".toList [] fatalForC2)
        [] ".".toList (some featureMain) []).2 = .ret (none, some e) := by
  refine ⟨rfl, rfl, ?_⟩
  rintro ⟨e, he⟩
  have hexit : (gitLogGitRequest
      (scriptedWorld "c1 one\nc2 two\nc3 three\n".toList [] fatalForC2)
      [] ".".toList (some featureMain) []).2 = .exit 1 := rfl
  rw [hexit] at he
  cases he

/-- C7 (amended): for a resolved commit list, assembly stops at the first commit whose
fetch does not succeed.  A document is returned if and only if every fetch succeeds.
`gitLogGitRequest` returns an error `e` if and only if the first fetch that does not succeed
fails by returning `e` (all the fetches before it having succeeded); it then has launched the
fetches of the commits up to that one and of no later commit, and it returns the pair
`(nil, e)`: no document.  When the first fetch that does not succeed ends the process, by a
fatal diagnostic line, the process exits with code 1 after the same fetches and no error is
returned. -/
theorem gitLogGitRequest_fail_fast {F : Type} (w : World F) (h h1 : List Event)
    (source : Str) (flags : Option GitRequestFlags) (commitsFile : Str) (commits : List Str)
    (hres : resolveCommits w h source flags commitsFile = (h1, .ret (.ok (commits, true)))) :
    (∀ e, (gitLogGitRequest w h source flags commitsFile).2 = .ret (none, some e) ↔
      ∃ (pre : List Str) (c : Str) (post blocks : List Str),
        commits = pre ++ c :: post ∧
        fetchOutcomes w source h1 pre = blocks.map (fun d => Run.ret (Except.ok d)) ∧
        (getCommitDetail w (h1 ++ pre.map (fetchEvent w source)) source c).2 =
          .ret (.error e)) ∧
    (∀ (pre : List Str) (c : Str) (post blocks : List Str) (e : GoError),
        commits = pre ++ c :: post →
        fetchOutcomes w source h1 pre = blocks.map (fun d => Run.ret (Except.ok d)) →
        (getCommitDetail w (h1 ++ pre.map (fetchEvent w source)) source c).2 =
          .ret (.error e) →
        gitLogGitRequest w h source flags commitsFile =
          (h1 ++ (pre ++ [c]).map (fetchEvent w source), .ret (none, some e))) ∧
    (∀ (pre : List Str) (c : Str) (post blocks : List Str) (code : Nat),
        commits = pre ++ c :: post →
        fetchOutcomes w source h1 pre = blocks.map (fun d => Run.ret (Except.ok d)) →
        (getCommitDetail w (h1 ++ pre.map (fetchEvent w source)) source c).2 = .exit code →
        gitLogGitRequest w h source flags commitsFile =
          (h1 ++ (pre ++ [c]).map (fetchEvent w source), .exit 1)) ∧
    ((∃ doc, (gitLogGitRequest w h source flags commitsFile).2 = .ret (some doc, none)) ↔
      ∃ blocks : List Str,
        fetchOutcomes w source h1 commits = blocks.map (fun d => Run.ret (Except.ok d))) := by
  have hreq := gitLogGitRequest_of_resolved w h h1 source flags commitsFile commits hres
  have hstop : ∀ (pre : List Str) (c : Str) (post blocks : List Str) (e : GoError),
      commits = pre ++ c :: post →
      fetchOutcomes w source h1 pre = blocks.map (fun d => Run.ret (Except.ok d)) →
      (getCommitDetail w (h1 ++ pre.map (fetchEvent w source)) source c).2 =
        .ret (.error e) →
      gitLogGitRequest w h source flags commitsFile =
        (h1 ++ (pre ++ [c]).map (fetchEvent w source), .ret (none, some e)) := by
    intro pre c post blocks e hcs hpre hc
    rw [hreq, hcs, fetchLoop_stop w source pre blocks h1 [] true c post _ hpre hc
      (by intro d hd; cases hd)]
  have hexit : ∀ (pre : List Str) (c : Str) (post blocks : List Str) (code : Nat),
      commits = pre ++ c :: post →
      fetchOutcomes w source h1 pre = blocks.map (fun d => Run.ret (Except.ok d)) →
      (getCommitDetail w (h1 ++ pre.map (fetchEvent w source)) source c).2 = .exit code →
      gitLogGitRequest w h source flags commitsFile =
        (h1 ++ (pre ++ [c]).map (fetchEvent w source), .exit 1) := by
    intro pre c post blocks code hcs hpre hc
    have hcode : code = 1 := getCmdOutput_exit w _ _ _ code hc
    subst hcode
    rw [hreq, hcs, fetchLoop_stop w source pre blocks h1 [] true c post _ hpre hc
      (by intro d hd; cases hd)]
  have hiff : ∀ e, (gitLogGitRequest w h source flags commitsFile).2 = .ret (none, some e) ↔
      ∃ (pre : List Str) (c : Str) (post blocks : List Str),
        commits = pre ++ c :: post ∧
        fetchOutcomes w source h1 pre = blocks.map (fun d => Run.ret (Except.ok d)) ∧
        (getCommitDetail w (h1 ++ pre.map (fetchEvent w source)) source c).2 =
          .ret (.error e) := by
    intro e
    constructor
    · intro hret
      rcases fetchOutcomes_cases w source commits h1 with
        ⟨ds, hds⟩ | ⟨pre, c, post, ds, hcs, hds, hno⟩
      · rw [hreq, fetchLoop_ok w source commits ds h1 [] true hds] at hret
        simp at hret
      · refine ⟨pre, c, post, ds, hcs, hds, ?_⟩
        rw [hreq, hcs, fetchLoop_stop w source pre ds h1 [] true c post _ hds rfl hno] at hret
        cases hr : (getCommitDetail w (h1 ++ pre.map (fetchEvent w source)) source c).2 with
        | blocked => rw [hr] at hret; simp at hret
        | exit code => rw [hr] at hret; simp at hret
        | ret a =>
          cases a with
          | ok d => exact absurd hr (hno d)
          | error e2 =>
            rw [hr] at hret
            simp only [Run.ret.injEq, Prod.mk.injEq, true_and, Option.some.injEq] at hret
            rw [hret]
    · rintro ⟨pre, c, post, blocks, hcs, hpre, hc⟩
      rw [hstop pre c post blocks e hcs hpre hc]
  refine ⟨hiff, hstop, hexit, ?_⟩
  constructor
  · rintro ⟨doc, hdoc⟩
    rcases fetchOutcomes_cases w source commits h1 with
      ⟨ds, hds⟩ | ⟨pre, c, post, ds, hcs, hds, hno⟩
    · exact ⟨ds, hds⟩
    · exfalso
      rw [hreq, hcs, fetchLoop_stop w source pre ds h1 [] true c post _ hds rfl hno] at hdoc
      cases hr : (getCommitDetail w (h1 ++ pre.map (fetchEvent w source)) source c).2 with
      | blocked => rw [hr] at hdoc; simp at hdoc
      | exit code => rw [hr] at hdoc; simp at hdoc
      | ret a =>
        cases a with
        | ok d => exact absurd hr (hno d)
        | error e2 => rw [hr] at hdoc; simp at hdoc
  · rintro ⟨blocks, hblocks⟩
    rw [hreq, fetchLoop_ok w source commits blocks h1 [] true hblocks]
    exact ⟨_, rfl⟩

/-- C7 witness: the range query lists `c1`, `c2`, `c3` and the fetch of `c2` returns an
error: the commits `c1` and `c2` are fetched, `c3` is not, and the error of `c2` is returned
with no document. -/
theorem gitLogGitRequest_fail_fast_witness :
    gitLogGitRequest (scriptedWorld "c1 one\nc2 two\nc3 three\n".toList [] failingForC2) []
        ".".toList (some featureMain) [] =
      ([Event.exec "git".toList ["-C".toList, ".".toList, "log".toList,
          "--format=oneline".toList, "--right-only".toList, "main..feature".toList],
        Event.exec "git".toList ["-C".toList, ".".toList, "show".toList, "-p".toList,
          "-U0".toList, "c1".toList],
        Event.exec "git".toList ["-C".toList, ".".toList, "show".toList, "-p".toList,
          "-U0".toList, "c2".toList]],
        .ret (none, some "cannot start".toList)) :=
  (gitLogGitRequest_fail_fast
    (scriptedWorld "c1 one\nc2 two\nc3 three\n".toList [] failingForC2) []
    [Event.exec "git".toList ["-C".toList, ".".toList, "log".toList,
      "--format=oneline".toList, "--right-only".toList, "main..feature".toList]]
    ".".toList (some featureMain) [] ["c1".toList, "c2".toList, "c3".toList] rfl).2.1
    ["c1".toList] "c2".toList ["c3".toList] ["patch of c1".toList] "cannot start".toList
    rfl rfl rfl

/-! ## C2 : branch pair and commit file together -/

/-- C2: when the branch pair is given (source and target not empty) and a commit-list file
is configured, and both resolve, the commit list of `gitLogGitRequest` is the list of the
branch pair followed by the list the file gives on its own; the fetches launched are those
of a prefix of that list, in order, and of the whole list, each commit as often as it
occurs, when every fetch succeeds. -/
theorem gitLogGitRequest_both_sources {F : Type} (w : World F) (h h1 : List Event)
    (source : Str) (fl : GitRequestFlags) (commitsFile : Str) (branchCommits : List Str)
    (rd : Reader) (content : Str)
    (hs : fl.SourceBranch ≠ []) (ht : fl.TargetBranch ≠ []) (hf : commitsFile ≠ [])
    (hbranch : getAllCommit w h source fl.SourceBranch fl.TargetBranch =
      (h1, .ret (.ok branchCommits)))
    (hopen : w.osOpen h1 commitsFile = .ok rd) (hread : ioutilReadAll rd = .ok content) :
    resolveCommits w h source (some fl) commitsFile =
        (h1 ++ [Event.openFile commitsFile],
          .ret (.ok (branchCommits ++ appendCommits [] content, true))) ∧
      (resolveCommitsFile w h1 commitsFile [] false).2 = .ok (appendCommits [] content, true) ∧
      (∃ k, k ≤ (branchCommits ++ appendCommits [] content).length ∧
        (gitLogGitRequest w h source (some fl) commitsFile).1 =
          h1 ++ [Event.openFile commitsFile] ++
            ((branchCommits ++ appendCommits [] content).take k).map (fetchEvent w source)) ∧
      (∀ blocks : List Str,
        fetchOutcomes w source (h1 ++ [Event.openFile commitsFile])
            (branchCommits ++ appendCommits [] content) =
          blocks.map (fun d => Run.ret (Except.ok d)) →
        (gitLogGitRequest w h source (some fl) commitsFile).1 =
          h1 ++ [Event.openFile commitsFile] ++
            (branchCommits.map (fetchEvent w source) ++
              (appendCommits [] content).map (fetchEvent w source))) := by
  have hres := resolveCommits_both w h h1 source fl commitsFile branchCommits rd content
    hs ht hf hbranch hopen hread
  have hreq := gitLogGitRequest_of_resolved w h _ source (some fl) commitsFile _ hres
  refine ⟨hres, ?_, ?_, ?_⟩
  · simp [resolveCommitsFile, hf, hopen, hread]
  · obtain ⟨k, hk, htake⟩ := fetchLoop_fst_take w source
      (branchCommits ++ appendCommits [] content) (h1 ++ [Event.openFile commitsFile]) [] true
    refine ⟨k, hk, ?_⟩
    rw [hreq, ← htake]
    cases fetchLoop w source (h1 ++ [Event.openFile commitsFile])
      (branchCommits ++ appendCommits [] content) [] true with
    | mk h2 r =>
      cases r with
      | blocked => rfl
      | exit code => rfl
      | ret a => cases a <;> rfl
  · intro blocks hfetch
    rw [hreq, fetchLoop_ok w source _ blocks _ [] true hfetch]
    simp

/-- C2 witness: the branch pair lists `c1`, `c2` and the file lists `c2`, `c3`: the commits
fetched are `c1`, `c2`, `c2`, `c3`. -/
theorem gitLogGitRequest_both_sources_witness :
    (gitLogGitRequest
        (scriptedWorld "c1 one\nc2 two\n".toList "c2 two\n\nc3 three\n".toList plainPatch) []
        ".".toList (some featureMain) "commits.txt".toList).1 =
      [Event.exec "git".toList ["-C".toList, ".".toList, "log".toList,
          "--format=oneline".toList, "--right-only".toList, "main..feature".toList]] ++
        [Event.openFile "commits.txt".toList] ++
        (["c1".toList, "c2".toList].map (fetchEvent
            (scriptedWorld "c1 one\nc2 two\n".toList "c2 two\n\nc3 three\n".toList plainPatch)
            ".".toList) ++
          ["c2".toList, "c3".toList].map (fetchEvent
            (scriptedWorld "c1 one\nc2 two\n".toList "c2 two\n\nc3 three\n".toList plainPatch)
            ".".toList)) :=
  (gitLogGitRequest_both_sources
    (scriptedWorld "c1 one\nc2 two\n".toList "c2 two\n\nc3 three\n".toList plainPatch) []
    [Event.exec "git".toList ["-C".toList, ".".toList, "log".toList,
      "--format=oneline".toList, "--right-only".toList, "main..feature".toList]]
    ".".toList featureMain "commits.txt".toList ["c1".toList, "c2".toList]
    { bytes := "c2 two\n\nc3 three\n".toList, fail := none } "c2 two\n\nc3 three\n".toList
    (by decide) (by decide) (by decide) rfl rfl rfl).2.2.2
    ["patch of c1".toList, "patch of c2".toList, "patch of c2".toList, "patch of c3".toList]
    rfl

/-! ## C9 : blank lines of the commit-list file -/

/-- C9: the commit list parsed from a commit-list file content holds no empty identifier,
it is appended to the commits already resolved, and two contents whose lines (pieces
between `'\n'`) are the same once the empty lines are removed, that is contents that differ
only by inserted or removed empty lines, give the same list; in particular inserting an
empty line at any place between the lines of a content, before the first or after the last,
leaves the list unchanged. -/
theorem commitsFile_blank_lines (commits : List Str) (a b : Str) :
    [] ∉ appendCommits [] a ∧
      appendCommits commits a = commits ++ appendCommits [] a ∧
      ((a.splitOn '\n').filter (fun l => !l.isEmpty) =
          (b.splitOn '\n').filter (fun l => !l.isEmpty) →
        appendCommits commits a = appendCommits commits b) ∧
      (∀ before after : List Str, (∀ l ∈ before ++ after, '\n' ∉ l) →
        appendCommits commits (['\n'].intercalate (before ++ [] :: after)) =
          appendCommits commits (['\n'].intercalate (before ++ after))) ∧
      (∀ (F : Type) (w : World F) (h : List Event) (commitsFile : Str) (enabled : Bool)
          (rd : Reader),
        commitsFile ≠ [] → w.osOpen h commitsFile = .ok rd → ioutilReadAll rd = .ok a →
        resolveCommitsFile w h commitsFile commits enabled =
          (h ++ [Event.openFile commitsFile], .ok (commits ++ appendCommits [] a, true))) := by
  have hsame : ∀ x y : Str,
      (x.splitOn '\n').filter (fun l => !l.isEmpty) =
        (y.splitOn '\n').filter (fun l => !l.isEmpty) →
      appendCommits commits x = appendCommits commits y := by
    intro x y hlines
    rw [appendCommits_eq, appendCommits_eq, filterMap_spacePiece_filter (x.splitOn '\n'),
      filterMap_spacePiece_filter (y.splitOn '\n'), hlines]
  refine ⟨?_, ?_, hsame a b, ?_, ?_⟩
  · rw [appendCommits_eq]
    simpa using not_mem_filterMap_spacePiece _
  · rw [appendCommits_eq commits, appendCommits_eq []]
    simp
  · intro before after hnl
    have hnl2 : ∀ l ∈ before ++ [] :: after, '\n' ∉ l := by
      intro l hl
      rcases List.mem_append.mp hl with hl | hl
      · exact hnl l (List.mem_append_left _ hl)
      · rcases List.mem_cons.mp hl with hl | hl
        · rw [hl]
          exact List.not_mem_nil _
        · exact hnl l (List.mem_append_right _ hl)
    by_cases hempty : before ++ after = []
    · have hb : before = [] := (List.append_eq_nil.mp hempty).1
      have ha : after = [] := (List.append_eq_nil.mp hempty).2
      subst hb
      subst ha
      rfl
    · apply hsame
      rw [List.splitOn_intercalate _ '\n' hnl2 (by simp),
        List.splitOn_intercalate _ '\n' hnl hempty]
      simp [List.filter_append, List.filter_cons]
  · intro F w h commitsFile enabled rd hf hopen hread
    simp only [resolveCommitsFile, hf, ne_eq, not_false_eq_true, if_true, hopen, hread]
    rw [appendCommits_eq commits, appendCommits_eq []]
    simp

/-- C9 witness: a content with one interleaved empty line and the same content with leading,
interleaved and trailing empty lines moved around give the same commit list. -/
theorem commitsFile_blank_lines_witness :
    appendCommits ["c0".toList] "c1 one\n\nc2 two\n".toList =
      appendCommits ["c0".toList] "\n\nc1 one\nc2 two\n\n\n".toList :=
  (commitsFile_blank_lines ["c0".toList] "c1 one\n\nc2 two\n".toList
    "\n\nc1 one\nc2 two\n\n\n".toList).2.2.1 (by decide)

/-! ## C6 : the "not applicable" signal -/

/-- C6 (as stated, refuted): with the branch pair `feature` / `main` given, when the range
query prints a fatal diagnostic line `gitLogGitRequest` does not return: the process exits
with code 1, so neither a document nor an error is returned. -/
theorem gitLogGitRequest_exits_on_fatal_diagnostic :
    branchPairGiven (some featureMain) = true ∧
    gitLogGitRequest fatalWorld [] ".".toList (some featureMain) [] =
      ([Event.exec "git".toList ["-C".toList, ".".toList, "log".toList,
        "--format=oneline".toList, "--right-only".toList, "main..feature".toList]],
        .exit 1) ∧
    ¬ ∃ r, (gitLogGitRequest fatalWorld [] ".".toList (some featureMain) []).2 = .ret r := by
  refine ⟨rfl, rfl, ?_⟩
  rintro ⟨r, hr⟩
  have hexit : (gitLogGitRequest fatalWorld [] ".".toList (some featureMain) []).2 = .exit 1 :=
    rfl
  rw [hexit] at hr
  cases hr

/-- C6 (amended): `gitLogGitRequest` signals "not applicable" (`nil, nil`) exactly when
the commit-file path is empty and the branch pair is not fully given (flags absent, source
branch empty or target branch empty); it has then launched no command and opened no file.
In every other configuration it never signals "not applicable", and, as long as the
standard output of every command fits in the pipe buffer, it returns a document or an
error, or the process is ended with exit code 1 by the diagnostic listener of a command it
launched; when the sources resolve to zero commits it returns the empty document. -/
theorem gitLogGitRequest_not_applicable {F : Type} (w : World F) (h : List Event)
    (source : Str) (flags : Option GitRequestFlags) (commitsFile : Str) :
    ((gitLogGitRequest w h source flags commitsFile).2 = .ret (none, none) ↔
      (commitsFile = [] ∧ branchPairGiven flags = false)) ∧
    (branchPairGiven flags = false ↔
      (flags = none ∨ ∃ fl, flags = some fl ∧ (fl.SourceBranch = [] ∨ fl.TargetBranch = []))) ∧
    (commitsFile = [] ∧ branchPairGiven flags = false →
      gitLogGitRequest w h source flags commitsFile = (h, .ret (none, none))) ∧
    (outputsFit w → ¬ (commitsFile = [] ∧ branchPairGiven flags = false) →
      (∃ doc, (gitLogGitRequest w h source flags commitsFile).2 =
        .ret (some { out := some (stringsNewReader doc), err := none }, none)) ∨
      (∃ e, (gitLogGitRequest w h source flags commitsFile).2 = .ret (none, some e)) ∨
      (gitLogGitRequest w h source flags commitsFile).2 = .exit 1) ∧
    (∀ h1, resolveCommits w h source flags commitsFile = (h1, .ret (.ok ([], true))) →
      gitLogGitRequest w h source flags commitsFile =
        (h1, .ret (some { out := some (stringsNewReader []), err := none }, none))) := by
  have hoff : commitsFile = [] ∧ branchPairGiven flags = false →
      gitLogGitRequest w h source flags commitsFile = (h, .ret (none, none)) := by
    rintro ⟨hfile, hpair⟩
    simp [gitLogGitRequest, resolveCommits_disabled w h source flags commitsFile hfile hpair]
  have hon : ¬ (commitsFile = [] ∧ branchPairGiven flags = false) →
      (∃ doc, (gitLogGitRequest w h source flags commitsFile).2 =
        .ret (some { out := some (stringsNewReader doc), err := none }, none)) ∨
      (∃ e, (gitLogGitRequest w h source flags commitsFile).2 = .ret (none, some e)) ∨
      (gitLogGitRequest w h source flags commitsFile).2 = .exit 1 ∨
      ((gitLogGitRequest w h source flags commitsFile).2 = .blocked ∧ ¬ outputsFit w) := by
    intro hnot
    have hen : commitsFile ≠ [] ∨ branchPairGiven flags = true := by
      by_cases hfile : commitsFile = []
      · right
        cases hb : branchPairGiven flags with
        | true => rfl
        | false => exact absurd ⟨hfile, hb⟩ hnot
      · exact Or.inl hfile
    cases hres : resolveCommits w h source flags commitsFile with
    | mk h1 r =>
      rcases resolveCommits_enabled w h source flags commitsFile hen with
        hc | ⟨e, hc⟩ | ⟨cs, hc⟩ | ⟨hc, hbig⟩
      · rw [hres] at hc
        simp only at hc
        subst hc
        right; right; left
        simp [gitLogGitRequest, hres]
      · rw [hres] at hc
        simp only at hc
        subst hc
        right; left
        exact ⟨e, by simp [gitLogGitRequest, hres]⟩
      · rw [hres] at hc
        simp only at hc
        subst hc
        rw [gitLogGitRequest_of_resolved w h h1 source flags commitsFile cs hres]
        cases hloop : fetchLoop w source h1 cs [] true with
        | mk h2 r2 =>
          cases r2 with
          | blocked =>
            refine Or.inr (Or.inr (Or.inr ⟨rfl, fun hfit => ?_⟩))
            exact fetchLoop_not_blocked w hfit source cs h1 [] true (by rw [hloop])
          | exit code =>
            have hcode := fetchLoop_exit w source cs h1 [] true code (by rw [hloop])
            subst hcode
            exact Or.inr (Or.inr (Or.inl rfl))
          | ret a =>
            cases a with
            | error e => exact Or.inr (Or.inl ⟨e, rfl⟩)
            | ok doc => exact Or.inl ⟨doc, rfl⟩
      · rw [hres] at hc
        simp only at hc
        subst hc
        right; right; right
        exact ⟨by simp [gitLogGitRequest, hres], hbig⟩
  refine ⟨⟨?_, fun hc => by rw [hoff hc]⟩, ?_, hoff, ?_, ?_⟩
  · intro hna
    by_contra hnot
    rcases hon hnot with ⟨doc, hd⟩ | ⟨e, he⟩ | hx | ⟨hb, _⟩
    · rw [hd] at hna
      simp at hna
    · rw [he] at hna
      simp at hna
    · rw [hx] at hna
      cases hna
    · rw [hb] at hna
      cases hna
  · cases flags with
    | none => simp [branchPairGiven]
    | some fl =>
      simp only [branchPairGiven, List.isEmpty_iff, Bool.and_eq_false_imp, Bool.not_eq_true',
        decide_eq_false_iff_not, Option.some.injEq, exists_eq_left', false_or]
      by_cases hsrc : fl.SourceBranch = []
      · simp [hsrc]
      · simp [hsrc]
  · intro hfit hnot
    rcases hon hnot with hd | he | hx | ⟨_, hbig⟩
    · exact Or.inl hd
    · exact Or.inr (Or.inl he)
    · exact Or.inr (Or.inr hx)
    · exact absurd hfit hbig
  · intro h1 hres
    rw [gitLogGitRequest_of_resolved w h h1 source flags commitsFile [] hres]
    rfl

/-- C6 witness: with no flags and no commit file, "not applicable" is signalled and the
history of external actions is unchanged; with the branch pair `feature` / `main` in a world
whose outputs fit in the pipe buffer, a document or an error is returned or the process
exits with code 1. -/
theorem gitLogGitRequest_not_applicable_witness :
    gitLogGitRequest fatalWorld [] ".".toList none [] = ([], .ret (none, none)) ∧
    ((∃ doc, (gitLogGitRequest fatalWorld [] ".".toList (some featureMain) []).2 =
        .ret (some { out := some (stringsNewReader doc), err := none }, none)) ∨
      (∃ e, (gitLogGitRequest fatalWorld [] ".".toList (some featureMain) []).2 =
        .ret (none, some e)) ∨
      (gitLogGitRequest fatalWorld [] ".".toList (some featureMain) []).2 = .exit 1) :=
  ⟨(gitLogGitRequest_not_applicable fatalWorld [] ".".toList none []).2.2.1 ⟨rfl, rfl⟩,
    (gitLogGitRequest_not_applicable fatalWorld [] ".".toList (some featureMain) []).2.2.2.1
      (by
        intro h name args stdout stderr hrun
        simp only [fatalWorld, CmdRun.started.injEq] at hrun
        rw [← hrun.1]
        decide)
      (by decide)⟩

end Gitleaks
